import Mathlib

/-!
Verification of the outbound delivery scheduler of `crates/smtp/src/queue/manager.rs`.

The Rust code is shallowly embedded:
* `u64` values (epoch seconds, queue ids) are `Nat`; where Rust wrapping
  subtraction on `u64` matters it is made explicit via `wsub64` (mod `2 ^ 64`).
* `std::time::Instant` is a `Nat` of monotonic seconds.  `Instant + Duration`
  is checked addition (`instantAddSecs`): Rust panics when the sum overflows
  the platform timespec (`i64` seconds), which the model reports as `none`.
  Inside the rescan the added durations are bounded by `QUEUE_REFRESH`, so the
  unchecked `Nat` addition used there coincides with the Rust behaviour.
* `AHashMap<QueueId, OnHold>` is an association list with unique keys;
  `insert` overwrites, `remove` deletes, `retain` filters.
* The clock is sampled once per loop iteration (`now` for `store::write::now()`
  and `mono` for `Instant::now()`); the claims under study do not depend on
  intra-iteration clock drift.
* Externals are inputs of a loop iteration: the store batch
  (`server.next_event()`), the admission check `is_outbound_allowed`
  (`none` = `Ok`, `some l` = `Err(l)`), the RNG shuffle (an arbitrary
  function on lists), and the received channel event (`none` = timeout).
-/

namespace MailQueue

/-- The constant `2 ^ 64`, the modulus of Rust `u64` arithmetic. -/
def U64MOD : Nat := 2 ^ 64

/-- Wrapping `u64` subtraction `a - b` (release-build semantics; a debug
build panics on underflow instead). -/
def wsub64 (a b : Nat) : Nat := (a + (U64MOD - b % U64MOD)) % U64MOD

/-- Largest second count representable in a platform timespec (`i64` seconds);
`Instant + Duration` panics beyond it. -/
def INSTANT_MAX_SECS : Nat := 2 ^ 63 - 1

/-- Rust `Instant + Duration::from_secs s`: checked addition, `none` models the
Rust panic on overflow. -/
def instantAddSecs (mono s : Nat) : Option Nat :=
  if mono + s ≤ INSTANT_MAX_SECS then some (mono + s) else none

abbrev QueueId := Nat

/-- Rust `throttle::ConcurrencyLimiter`: an admission gate with an atomic
in-flight counter sampled at `Ordering::Relaxed`. -/
structure Limiter where
  concurrent : Nat
  max_concurrent : Nat
deriving DecidableEq

/-- Rust `common::ipc::OnHold`: the reason a queue item is currently blocked.
(`until` is a reserved word in Lean, hence the trailing underscore.) -/
inductive OnHold where
  | Locked (until_ : Nat)
  | ConcurrencyLimited (limiters : List Limiter) (next_due : Option Nat)
  | InFlight
deriving DecidableEq

/-- Rust `common::ipc::QueueEvent` (the `OnHold` variant is named `OnHoldEvent`
here to avoid clashing with the status type). -/
inductive QueueEvent where
  | Refresh (queue_id : Option QueueId)
  | WorkerDone (queue_id : QueueId)
  | OnHoldEvent (queue_id : QueueId) (status : OnHold)
  | Paused (paused : Bool)
  | Stop
deriving DecidableEq

/-- One element of the batch returned by the store's `next_event()`
enumeration: a queue id together with its due time (epoch seconds). -/
structure QueueEventItem where
  queue_id : QueueId
  due : Nat
deriving DecidableEq

/-- The `on_hold: AHashMap<QueueId, OnHold>` map, as an association list. -/
abbrev Holds := List (QueueId × OnHold)

/-- The map read `on_hold.get(&id)`. -/
def holdsGet (h : Holds) (id : QueueId) : Option OnHold :=
  (h.find? (fun p => p.1 == id)).map (fun p => p.2)

/-- The map removal `on_hold.remove(&id)`. -/
def holdsRemove (h : Holds) (id : QueueId) : Holds :=
  h.filter (fun p => p.1 != id)

/-- The map write `on_hold.insert(id, s)` (overwrites any previous entry). -/
def holdsInsert (h : Holds) (id : QueueId) (s : OnHold) : Holds :=
  (id, s) :: holdsRemove h id

/-- Rust `queue::Status<T, E>`; the payloads are irrelevant to scheduling and
abstracted as opaque indices. -/
inductive Status where
  | Scheduled
  | Completed (v : Nat)
  | TemporaryFailure (e : Nat)
  | PermanentFailure (e : Nat)
deriving DecidableEq

/-- Rust `queue::Schedule`: only its `due` field is read by the manager. -/
structure Schedule where
  due : Nat
deriving DecidableEq

/-- Rust `queue::Domain`: per-destination delivery state of one message. -/
structure Domain where
  status : Status
  retry : Schedule
  notify : Schedule
  expires : Nat
deriving DecidableEq

/-- Rust `queue::Message`, restricted to the `domains` field read by the
deadline queries. -/
structure Message where
  domains : List Domain
deriving DecidableEq

/-- The `matches!(status, Scheduled | TemporaryFailure(_))` test. -/
def qualifies (d : Domain) : Bool :=
  match d.status with
  | .Scheduled => true
  | .TemporaryFailure _ => true
  | _ => false

/-- The body of `Message::next_event`'s `for` loop: accumulator
`(next_event, has_events)` threaded over the domains. -/
def nextEventLoop : List Domain → Nat → Bool → Nat × Bool
  | [], ne, he => (ne, he)
  | d :: rest, ne, he =>
    if qualifies d then
      let ne1 := if !he || d.retry.due < ne then d.retry.due else ne
      let ne2 := if d.notify.due < ne1 then d.notify.due else ne1
      let ne3 := if d.expires < ne2 then d.expires else ne2
      nextEventLoop rest ne3 true
    else
      nextEventLoop rest ne he

/-- Rust `Message::next_event`, with the `now()` sample passed explicitly. -/
def next_event (now : Nat) (m : Message) : Nat × Bool :=
  nextEventLoop m.domains now false

/-- The `Option` returned by `Message::next_event`. -/
def next_eventOpt (now : Nat) (m : Message) : Option Nat :=
  let r := next_event now m
  if r.2 then some r.1 else none

/-- Smallest of a qualifying domain's three deadlines. -/
def domainMin (d : Domain) : Nat :=
  min d.retry.due (min d.notify.due d.expires)

/-- Stated from the spec's words, for comparison with `next_eventOpt`:
"minimum of every domain's retry, notify, expires; None if no domain
qualifies", the minimum ranging over `Scheduled`/`TemporaryFailure`
domains only. -/
def minDeadline : List Domain → Option Nat
  | [] => none
  | d :: rest =>
    let r := minDeadline rest
    if qualifies d then
      match r with
      | none => some (domainMin d)
      | some m => some (min (domainMin d) m)
    else r

/-- The constant `CLEANUP_INTERVAL: Duration = 10 * 60` seconds. -/
def CLEANUP_INTERVAL : Nat := 10 * 60

/-- Modelled from the spec: `QUEUE_REFRESH` (from `queue::spool`, not part of
the sources under study) is the "default refresh ceiling" that "bounds how
long the loop sleeps when nothing is scheduled".  The spec gives no numeric
value (its scenario 2 implies it exceeds 300 seconds); one hour is used here.
Every theorem below that depends on it is stated for an arbitrary positive
ceiling, so this concrete value only feeds witnesses and counterexamples. -/
def QUEUE_REFRESH : Nat := 3600

/-- Scheduler state owned by the control loop: the `Queue` fields `on_hold`
and `next_wake_up` together with the loop locals `is_paused` and
`next_cleanup`, and the process-visible `queue_status` atomic. -/
structure QueueState where
  on_hold : Holds
  next_wake_up : Nat
  is_paused : Bool
  next_cleanup : Nat
  queue_status : Bool
deriving DecidableEq

/-- External inputs consumed by one iteration of `Queue::start`'s loop. -/
structure LoopInput where
  /-- Outcome of the `timeout(.., rx.recv())` race: `none` is `Err(_)`
  (timeout); `some ev` is `Ok(Some(ev))`.  Channel closure is `Stop`. -/
  event : Option QueueEvent
  /-- Epoch seconds sampled by `store::write::now()`. -/
  now : Nat
  /-- Monotonic seconds sampled by `Instant::now()`. -/
  mono : Nat
  /-- The batch returned by `server.next_event()`. -/
  batch : List QueueEventItem
  /-- Admission check `server.is_outbound_allowed(&mut in_flight)`:
  `none` = `Ok(())`, `some l` = `Err(l)`. -/
  adm : QueueId → Option Limiter
  /-- The permutation realised by `queue_events.shuffle(..)`. -/
  perm : List QueueEventItem → List QueueEventItem

/-- Result of the control-event arm of the loop. -/
inductive EventResult where
  | proceed (st : QueueState) (refresh : Bool)
  | halted
  | panicked

/-- The `match` over the received event (manager.rs lines 60-99), returning
the updated state and the `refresh_queue` flag.  `halted` is the `break` on
`Stop`/channel closure; `panicked` is the arithmetic panic in the
`OnHold { status: Locked { until } }` arm when `until - now()` underflows
(wrapping to a huge `u64` whose addition to `Instant::now()` overflows). -/
def processEvent (st : QueueState) (ev : Option QueueEvent) (now mono : Nat) :
    EventResult :=
  match ev with
  | none => .proceed st true
  | some (.Refresh oid) =>
    match oid with
    | some id => .proceed { st with on_hold := holdsRemove st.on_hold id } true
    | none => .proceed st true
  | some (.WorkerDone id) =>
    let oh := holdsRemove st.on_hold id
    .proceed { st with on_hold := oh } (!oh.isEmpty)
  | some (.OnHoldEvent id status) =>
    let stepped : Option QueueState :=
      match status with
      | .Locked u =>
        match instantAddSecs mono (wsub64 u now) with
        | none => none
        | some due_in =>
          some (if due_in < st.next_wake_up
                then { st with next_wake_up := due_in } else st)
      | _ => some st
    match stepped with
    | none => .panicked
    | some st1 =>
      let oh := holdsInsert st1.on_hold id status
      .proceed { st1 with on_hold := oh } (decide (oh.length > 1))
  | some (.Paused p) =>
    .proceed { st with queue_status := !p, is_paused := p } false
  | some .Stop => .halted

/-- Accumulator of the `for queue_event in &queue_events` scan: the hold map,
the local relative `next_wake_up` (initially `QUEUE_REFRESH`), and the ids
handed to `DeliveryAttempt::try_deliver` in order. -/
structure ScanState where
  on_hold : Holds
  next_wake_up : Nat
  dispatched : List QueueId
deriving DecidableEq

/-- The admission tail of the scan body (manager.rs lines 143-164):
`is_outbound_allowed` either admits — insert `InFlight`, dispatch — or
refuses with a limiter — insert `ConcurrencyLimited`. -/
def admitItem (adm : QueueId → Option Limiter) (st : ScanState)
    (qe : QueueEventItem) : ScanState :=
  match adm qe.queue_id with
  | none =>
    { st with on_hold := holdsInsert st.on_hold qe.queue_id .InFlight,
              dispatched := st.dispatched ++ [qe.queue_id] }
  | some limiter =>
    { st with on_hold := holdsInsert st.on_hold qe.queue_id
                (.ConcurrencyLimited [limiter] none) }

/-- The eligibility test of a `ConcurrencyLimited` hold (lines 130-132):
some limiter has spare capacity, or `next_due` has elapsed. -/
def clEligible (now : Nat) (ls : List Limiter) (nd : Option Nat) : Bool :=
  ls.any (fun l => l.concurrent < l.max_concurrent) ||
    (match nd with | some d => decide (d ≤ now) | none => false)

/-- One step of the scan over a batch item (lines 115-171). -/
def stepItem (now : Nat) (adm : QueueId → Option Limiter) (st : ScanState)
    (qe : QueueEventItem) : ScanState :=
  if qe.due ≤ now then
    match holdsGet st.on_hold qe.queue_id with
    | some (.Locked u) =>
      if now < u then
        { st with next_wake_up :=
            if u - now < st.next_wake_up then u - now else st.next_wake_up }
      else
        admitItem adm { st with on_hold := holdsRemove st.on_hold qe.queue_id } qe
    | some (.ConcurrencyLimited ls nd) =>
      if clEligible now ls nd then
        admitItem adm { st with on_hold := holdsRemove st.on_hold qe.queue_id } qe
      else st
    | some .InFlight => st
    | none => admitItem adm st qe
  else
    { st with next_wake_up :=
        if qe.due - now < st.next_wake_up then qe.due - now
        else st.next_wake_up }

/-- The whole scan: a left fold of `stepItem` over the processed batch. -/
def processBatch (now : Nat) (adm : QueueId → Option Limiter)
    (st : ScanState) (batch : List QueueEventItem) : ScanState :=
  batch.foldl (stepItem now adm) st

/-- Lines 111-113: shuffle the batch exactly when it has more than 5
elements. -/
def maybeShuffle (perm : List QueueEventItem → List QueueEventItem)
    (batch : List QueueEventItem) : List QueueEventItem :=
  if batch.length > 5 then perm batch else batch

/-- The retention predicate of the periodic cleanup (lines 184-190). -/
def keepHold (now : Nat) (activeIds : List QueueId) (id : QueueId)
    (s : OnHold) : Bool :=
  match s with
  | .InFlight => true
  | .Locked u => decide (u > now)
  | .ConcurrencyLimited _ _ => activeIds.contains id

/-- The `on_hold.retain(..)` call of the cleanup pass. -/
def cleanupHolds (now : Nat) (activeIds : List QueueId) (h : Holds) : Holds :=
  h.filter (fun p => keepHold now activeIds p.1 p.2)

/-- The rescan block (lines 103-194): shuffle-and-scan the batch, run the
periodic cleanup when due, and set the absolute `next_wake_up`.  Returns the
new state and the dispatched ids.  The durations added to instants here are
bounded by `qrefresh`/`CLEANUP_INTERVAL`, so plain `Nat` addition models the
(non-overflowing) Rust `Instant` additions. -/
def rescan (qrefresh : Nat) (st : QueueState) (inp : LoopInput) :
    QueueState × List QueueId :=
  let batch := maybeShuffle inp.perm inp.batch
  let scan := processBatch inp.now inp.adm
    { on_hold := st.on_hold, next_wake_up := qrefresh, dispatched := [] } batch
  let cln :=
    if st.next_cleanup ≤ inp.mono then
      (if scan.on_hold.isEmpty then scan.on_hold
       else cleanupHolds inp.now (batch.map (fun e => e.queue_id)) scan.on_hold,
       inp.mono + CLEANUP_INTERVAL)
    else (scan.on_hold, st.next_cleanup)
  ({ st with on_hold := cln.1, next_cleanup := cln.2,
             next_wake_up := inp.mono + scan.next_wake_up },
   scan.dispatched)

/-- Result of one loop iteration. -/
inductive StepResult where
  | ok (st : QueueState) (dispatched : List QueueId)
  | stopped (st : QueueState)
  | panicked
deriving DecidableEq

/-- One full iteration of `Queue::start`'s `loop` (lines 59-200). -/
def loopBody (qrefresh : Nat) (st : QueueState) (inp : LoopInput) :
    StepResult :=
  match processEvent st inp.event inp.now inp.mono with
  | .halted => .stopped st
  | .panicked => .panicked
  | .proceed st1 refresh =>
    if !st1.is_paused then
      if refresh || st1.next_wake_up ≤ inp.mono then
        let r := rescan qrefresh st1 inp
        .ok r.1 r.2
      else .ok st1 []
    else .ok { st1 with next_wake_up := inp.mono + 86400 } []

/-- The duration of the timed wait (line 61):
`next_wake_up.duration_since(Instant::now())`, which Rust saturates at zero
when the deadline has already passed — truncated `Nat` subtraction. -/
def waitDuration (st : QueueState) (mono : Nat) : Nat :=
  st.next_wake_up - mono

/-- Classification used to state the per-item outcome of one rescan
(claim C7): what the scan does to a due/non-due batch item given the hold
map as it stands when the item is reached. -/
inductive Outcome where
  | dispatchedNow
  | limitedNow
  | skippedNow
  | notDue
deriving DecidableEq

/-- Outcome of `admitItem` for an id. -/
def admitOutcome (adm : QueueId → Option Limiter) (id : QueueId) : Outcome :=
  match adm id with
  | none => .dispatchedNow
  | some _ => .limitedNow

/-- Predicted outcome of a batch item from the initial hold map (sound for
batches whose queue ids are pairwise distinct, since then no other item
touches this id's entry). -/
def itemOutcome (now : Nat) (adm : QueueId → Option Limiter) (holds : Holds)
    (qe : QueueEventItem) : Outcome :=
  if qe.due ≤ now then
    match holdsGet holds qe.queue_id with
    | some (.Locked u) =>
      if now < u then .skippedNow else admitOutcome adm qe.queue_id
    | some (.ConcurrencyLimited ls nd) =>
      if clEligible now ls nd then admitOutcome adm qe.queue_id
      else .skippedNow
    | some .InFlight => .skippedNow
    | none => admitOutcome adm qe.queue_id
  else .notDue

/-! ## Association-list map lemmas -/

theorem holdsGet_nil (id : QueueId) : holdsGet [] id = none := rfl

theorem holdsGet_cons (k : QueueId) (v : OnHold) (t : Holds) (id : QueueId) :
    holdsGet ((k, v) :: t) id = if k = id then some v else holdsGet t id := by
  by_cases h : k = id
  · simp [holdsGet, List.find?_cons_of_pos, h]
  · simp [holdsGet, List.find?_cons_of_neg, h]

theorem holdsGet_remove (h : Holds) (i id : QueueId) :
    holdsGet (holdsRemove h i) id = if id = i then none else holdsGet h id := by
  induction h with
  | nil => simp [holdsGet, holdsRemove]
  | cons p t ih =>
    obtain ⟨k, v⟩ := p
    by_cases hki : k = i
    · subst hki
      have hkr : holdsRemove ((k, v) :: t) k = holdsRemove t k := by
        simp [holdsRemove, List.filter_cons]
      rw [hkr, ih, holdsGet_cons]
      by_cases hid : id = k
      · simp [hid]
      · simp [hid, Ne.symm hid]
    · have hkr : holdsRemove ((k, v) :: t) i = (k, v) :: holdsRemove t i := by
        simp [holdsRemove, List.filter_cons, bne_iff_ne, hki]
      rw [hkr, holdsGet_cons, holdsGet_cons, ih]
      by_cases hkd : k = id
      · subst hkd
        simp [hki]
      · simp [hkd]

theorem holdsGet_insert (h : Holds) (i id : QueueId) (s : OnHold) :
    holdsGet (holdsInsert h i s) id = if id = i then some s else holdsGet h id := by
  rw [holdsInsert, holdsGet_cons, holdsGet_remove]
  by_cases hid : id = i
  · simp [hid]
  · simp [hid, Ne.symm hid]

theorem holdsGet_eq_none_of_not_mem (h : Holds) (id : QueueId)
    (hm : id ∉ h.map Prod.fst) : holdsGet h id = none := by
  induction h with
  | nil => rfl
  | cons p t ih =>
    obtain ⟨k, v⟩ := p
    rw [List.map_cons] at hm
    simp only [List.mem_cons, not_or] at hm
    rw [holdsGet_cons]
    simp [Ne.symm hm.1, ih hm.2]

/-! ## `Message::next_event` versus the spec's minimum -/

theorem nextEventLoop_true (ds : List Domain) (acc : Nat) :
    nextEventLoop ds acc true =
      ((match minDeadline ds with | none => acc | some m => min m acc), true) := by
  induction ds generalizing acc with
  | nil => simp [nextEventLoop, minDeadline]
  | cons d rest ih =>
    by_cases hq : qualifies d
    · rw [nextEventLoop]
      simp only [hq, if_true, Bool.not_true, Bool.false_or, decide_eq_true_eq]
      rw [ih]
      have hstep :
          (if d.expires < (if d.notify.due < (if d.retry.due < acc then d.retry.due else acc)
              then d.notify.due else (if d.retry.due < acc then d.retry.due else acc))
           then d.expires
           else (if d.notify.due < (if d.retry.due < acc then d.retry.due else acc)
              then d.notify.due else (if d.retry.due < acc then d.retry.due else acc))) =
            min (domainMin d) acc := by
        rw [domainMin]
        split <;> split <;> split <;> omega
      rw [hstep, minDeadline]
      simp only [hq, if_true]
      cases hr : minDeadline rest with
      | none => simp
      | some m => simp [min_left_comm m (domainMin d) acc]
    · rw [nextEventLoop, minDeadline]
      simp only [hq, if_false, Bool.false_eq_true]
      exact ih acc

theorem nextEventLoop_false (ds : List Domain) (acc : Nat) :
    nextEventLoop ds acc false =
      (match minDeadline ds with | none => (acc, false) | some m => (m, true)) := by
  induction ds generalizing acc with
  | nil => simp [nextEventLoop, minDeadline]
  | cons d rest ih =>
    by_cases hq : qualifies d
    · rw [nextEventLoop]
      simp only [hq, if_true, Bool.not_false, Bool.true_or, decide_eq_true_eq]
      have hstep :
          (if d.expires < (if d.notify.due < d.retry.due then d.notify.due else d.retry.due)
           then d.expires
           else (if d.notify.due < d.retry.due then d.notify.due else d.retry.due)) =
            domainMin d := by
        rw [domainMin]
        split <;> split <;> omega
      rw [hstep, nextEventLoop_true, minDeadline]
      simp only [hq, if_true]
      cases hr : minDeadline rest with
      | none => simp
      | some m => simp [min_comm m (domainMin d)]
    · rw [nextEventLoop, minDeadline]
      simp only [hq, if_false, Bool.false_eq_true]
      exact ih acc

theorem minDeadline_eq_none (ds : List Domain) :
    minDeadline ds = none ↔ ∀ d ∈ ds, qualifies d = false := by
  induction ds with
  | nil => simp [minDeadline]
  | cons d rest ih =>
    cases hq : qualifies d with
    | true =>
      rw [minDeadline]
      simp only [hq, if_true]
      constructor
      · intro hcontra
        cases hr : minDeadline rest <;> simp [hr] at hcontra
      · intro hall
        have hd := hall d (List.mem_cons_self d rest)
        rw [hq] at hd
        cases hd
    | false =>
      rw [minDeadline]
      simp only [hq, Bool.false_eq_true, if_false]
      rw [ih]
      constructor
      · intro hall e he
        rcases List.mem_cons.mp he with rfl | hmem
        · exact hq
        · exact hall e hmem
      · intro hall e he
        exact hall e (List.mem_cons_of_mem d he)

/-- Claim C8: for every `Message`, `next_event()` returns `Some` of the
minimum, over all domains in `Scheduled`/`TemporaryFailure` status, of each
such domain's `retry`, `notify` and `expires` deadlines; it returns `None`
when no domain qualifies; and it is deterministic and side-effect-free —
in particular its value does not depend on the sampled clock `now`. -/
theorem c8_next_event (now now' : Nat) (m : Message) :
    next_eventOpt now m = minDeadline m.domains ∧
    next_eventOpt now m = next_eventOpt now' m ∧
    (next_eventOpt now m = none ↔ ∀ d ∈ m.domains, qualifies d = false) := by
  have hval : ∀ t, next_eventOpt t m = minDeadline m.domains := by
    intro t
    rw [next_eventOpt, next_event, nextEventLoop_false]
    cases hr : minDeadline m.domains <;> simp
  refine ⟨hval now, (hval now).trans (hval now').symm, ?_⟩
  rw [hval now]
  exact minDeadline_eq_none m.domains

/-! ## Per-item scan lemmas -/

theorem admitItem_other (adm : QueueId → Option Limiter) (st : ScanState)
    (qe : QueueEventItem) (id : QueueId) (hne : id ≠ qe.queue_id) :
    holdsGet (admitItem adm st qe).on_hold id = holdsGet st.on_hold id ∧
    (admitItem adm st qe).dispatched.count id = st.dispatched.count id := by
  rw [admitItem]
  cases adm qe.queue_id with
  | none =>
    refine ⟨by simp [holdsGet_insert, hne], ?_⟩
    simp [List.count_append, List.count_cons, beq_iff_eq, Ne.symm hne]
  | some l => exact ⟨by simp [holdsGet_insert, hne], rfl⟩

theorem admitItem_nwu (adm : QueueId → Option Limiter) (st : ScanState)
    (qe : QueueEventItem) : (admitItem adm st qe).next_wake_up = st.next_wake_up := by
  rw [admitItem]
  cases adm qe.queue_id <;> rfl

theorem stepItem_other (now : Nat) (adm : QueueId → Option Limiter)
    (st : ScanState) (qe : QueueEventItem) (id : QueueId)
    (hne : id ≠ qe.queue_id) :
    holdsGet (stepItem now adm st qe).on_hold id = holdsGet st.on_hold id ∧
    (stepItem now adm st qe).dispatched.count id = st.dispatched.count id := by
  rw [stepItem]
  by_cases hdue : qe.due ≤ now
  · rw [if_pos hdue]
    cases hg : holdsGet st.on_hold qe.queue_id with
    | none => exact admitItem_other adm st qe id hne
    | some s =>
      cases s with
      | Locked u =>
        dsimp only
        by_cases hlt : now < u
        · rw [if_pos hlt]
          exact ⟨rfl, rfl⟩
        · rw [if_neg hlt]
          have h := admitItem_other adm
            { st with on_hold := holdsRemove st.on_hold qe.queue_id } qe id hne
          simpa [holdsGet_remove, hne] using h
      | ConcurrencyLimited ls nd =>
        dsimp only
        by_cases hel : clEligible now ls nd = true
        · rw [if_pos hel]
          have h := admitItem_other adm
            { st with on_hold := holdsRemove st.on_hold qe.queue_id } qe id hne
          simpa [holdsGet_remove, hne] using h
        · rw [if_neg hel]
          exact ⟨rfl, rfl⟩
      | InFlight => exact ⟨rfl, rfl⟩
  · rw [if_neg hdue]
    exact ⟨rfl, rfl⟩

theorem stepItem_nwu_le (now : Nat) (adm : QueueId → Option Limiter)
    (st : ScanState) (qe : QueueEventItem) :
    (stepItem now adm st qe).next_wake_up ≤ st.next_wake_up := by
  rw [stepItem]
  by_cases hdue : qe.due ≤ now
  · rw [if_pos hdue]
    cases hg : holdsGet st.on_hold qe.queue_id with
    | none => rw [admitItem_nwu]
    | some s =>
      cases s with
      | Locked u =>
        dsimp only
        by_cases hlt : now < u
        · rw [if_pos hlt]
          dsimp
          split <;> omega
        · rw [if_neg hlt, admitItem_nwu]
      | ConcurrencyLimited ls nd =>
        dsimp only
        by_cases hel : clEligible now ls nd = true
        · rw [if_pos hel, admitItem_nwu]
        · rw [if_neg hel]
      | InFlight => exact le_refl _
  · rw [if_neg hdue]
    dsimp
    split <;> omega

theorem processBatch_cons (now : Nat) (adm : QueueId → Option Limiter)
    (st : ScanState) (qe : QueueEventItem) (rest : List QueueEventItem) :
    processBatch now adm st (qe :: rest) =
      processBatch now adm (stepItem now adm st qe) rest := rfl

theorem processBatch_nwu_le (now : Nat) (adm : QueueId → Option Limiter)
    (batch : List QueueEventItem) : ∀ st : ScanState,
    (processBatch now adm st batch).next_wake_up ≤ st.next_wake_up := by
  induction batch with
  | nil => exact fun st => le_refl _
  | cons qe rest ih =>
    intro st
    rw [processBatch_cons]
    exact (ih (stepItem now adm st qe)).trans (stepItem_nwu_le now adm st qe)

theorem processBatch_other (now : Nat) (adm : QueueId → Option Limiter)
    (batch : List QueueEventItem) (id : QueueId) : ∀ st : ScanState,
    id ∉ batch.map QueueEventItem.queue_id →
    holdsGet (processBatch now adm st batch).on_hold id = holdsGet st.on_hold id ∧
    (processBatch now adm st batch).dispatched.count id = st.dispatched.count id := by
  induction batch with
  | nil => exact fun st _ => ⟨rfl, rfl⟩
  | cons qe rest ih =>
    intro st hnm
    rw [List.map_cons] at hnm
    simp only [List.mem_cons, not_or] at hnm
    have h1 := stepItem_other now adm st qe id hnm.1
    have h2 := ih (stepItem now adm st qe) hnm.2
    rw [processBatch_cons]
    exact ⟨h2.1.trans h1.1, h2.2.trans h1.2⟩

theorem processBatch_inflight (now : Nat) (adm : QueueId → Option Limiter)
    (batch : List QueueEventItem) (id : QueueId) : ∀ st : ScanState,
    holdsGet st.on_hold id = some .InFlight →
    holdsGet (processBatch now adm st batch).on_hold id = some .InFlight ∧
    (processBatch now adm st batch).dispatched.count id = st.dispatched.count id := by
  induction batch with
  | nil => exact fun st h => ⟨h, rfl⟩
  | cons qe rest ih =>
    intro st h
    rw [processBatch_cons]
    by_cases hid : id = qe.queue_id
    · subst hid
      have hfr : (stepItem now adm st qe).on_hold = st.on_hold ∧
          (stepItem now adm st qe).dispatched = st.dispatched := by
        rw [stepItem]
        by_cases hdue : qe.due ≤ now
        · rw [if_pos hdue, h]
          exact ⟨rfl, rfl⟩
        · rw [if_neg hdue]
          exact ⟨rfl, rfl⟩
      have hrec := ih (stepItem now adm st qe) (by rw [hfr.1]; exact h)
      rw [hfr.2] at hrec
      exact hrec
    · have h1 := stepItem_other now adm st qe id hid
      have hrec := ih (stepItem now adm st qe) (h1.1.trans h)
      exact ⟨hrec.1, hrec.2.trans h1.2⟩

theorem admitItem_own (adm : QueueId → Option Limiter) (st : ScanState)
    (qe : QueueEventItem) :
    (admitItem adm st qe).dispatched.count qe.queue_id =
      st.dispatched.count qe.queue_id +
        (if admitOutcome adm qe.queue_id = .dispatchedNow then 1 else 0) ∧
    (admitOutcome adm qe.queue_id = .dispatchedNow →
      holdsGet (admitItem adm st qe).on_hold qe.queue_id = some .InFlight) ∧
    (admitOutcome adm qe.queue_id = .limitedNow →
      ∃ l, adm qe.queue_id = some l ∧
        holdsGet (admitItem adm st qe).on_hold qe.queue_id =
          some (.ConcurrencyLimited [l] none)) := by
  rw [admitItem, admitOutcome]
  cases ha : adm qe.queue_id with
  | none =>
    dsimp only
    refine ⟨?_, ?_, ?_⟩
    · simp [List.count_append, List.count_cons]
    · intro _
      simp [holdsGet_insert]
    · intro hcon
      exact absurd hcon (by decide)
  | some l =>
    dsimp only
    refine ⟨?_, ?_, ?_⟩
    · simp
    · intro hcon
      exact absurd hcon (by decide)
    · intro _
      exact ⟨l, rfl, by simp [holdsGet_insert]⟩

theorem admitOutcome_ne_skipped (adm : QueueId → Option Limiter)
    (id : QueueId) : admitOutcome adm id ≠ .skippedNow := by
  rw [admitOutcome]
  cases adm id <;> simp

theorem admitOutcome_ne_notDue (adm : QueueId → Option Limiter)
    (id : QueueId) : admitOutcome adm id ≠ .notDue := by
  rw [admitOutcome]
  cases adm id <;> simp

theorem stepItem_own (now : Nat) (adm : QueueId → Option Limiter)
    (st : ScanState) (qe : QueueEventItem) :
    (stepItem now adm st qe).dispatched.count qe.queue_id =
      st.dispatched.count qe.queue_id +
        (if itemOutcome now adm st.on_hold qe = .dispatchedNow then 1 else 0) ∧
    (itemOutcome now adm st.on_hold qe = .dispatchedNow →
      holdsGet (stepItem now adm st qe).on_hold qe.queue_id = some .InFlight) ∧
    (itemOutcome now adm st.on_hold qe = .limitedNow →
      ∃ l, adm qe.queue_id = some l ∧
        holdsGet (stepItem now adm st qe).on_hold qe.queue_id =
          some (.ConcurrencyLimited [l] none)) ∧
    (itemOutcome now adm st.on_hold qe = .skippedNow →
      holdsGet (stepItem now adm st qe).on_hold qe.queue_id =
        holdsGet st.on_hold qe.queue_id) ∧
    (itemOutcome now adm st.on_hold qe = .notDue →
      holdsGet (stepItem now adm st qe).on_hold qe.queue_id =
        holdsGet st.on_hold qe.queue_id ∧
      (stepItem now adm st qe).next_wake_up ≤ qe.due - now) := by
  rw [stepItem, itemOutcome]
  by_cases hdue : qe.due ≤ now
  · rw [if_pos hdue, if_pos hdue]
    cases hg : holdsGet st.on_hold qe.queue_id with
    | none =>
      dsimp only
      have ha := admitItem_own adm st qe
      refine ⟨ha.1, ha.2.1, ha.2.2, ?_, ?_⟩
      · intro hcon
        exact absurd hcon (admitOutcome_ne_skipped adm qe.queue_id)
      · intro hcon
        exact absurd hcon (admitOutcome_ne_notDue adm qe.queue_id)
    | some s =>
      cases s with
      | Locked u =>
        dsimp only
        by_cases hlt : now < u
        · rw [if_pos hlt, if_pos hlt]
          refine ⟨by simp, ?_, ?_, ?_, ?_⟩
          · intro hcon
            exact absurd hcon (by decide)
          · intro hcon
            exact absurd hcon (by decide)
          · intro _
            exact hg
          · intro hcon
            exact absurd hcon (by decide)
        · rw [if_neg hlt, if_neg hlt]
          have ha := admitItem_own adm
            { st with on_hold := holdsRemove st.on_hold qe.queue_id } qe
          refine ⟨ha.1, ha.2.1, ha.2.2, ?_, ?_⟩
          · intro hcon
            exact absurd hcon (admitOutcome_ne_skipped adm qe.queue_id)
          · intro hcon
            exact absurd hcon (admitOutcome_ne_notDue adm qe.queue_id)
      | ConcurrencyLimited ls nd =>
        dsimp only
        by_cases hel : clEligible now ls nd = true
        · rw [if_pos hel, if_pos hel]
          have ha := admitItem_own adm
            { st with on_hold := holdsRemove st.on_hold qe.queue_id } qe
          refine ⟨ha.1, ha.2.1, ha.2.2, ?_, ?_⟩
          · intro hcon
            exact absurd hcon (admitOutcome_ne_skipped adm qe.queue_id)
          · intro hcon
            exact absurd hcon (admitOutcome_ne_notDue adm qe.queue_id)
        · rw [if_neg hel, if_neg hel]
          refine ⟨by simp, ?_, ?_, ?_, ?_⟩
          · intro hcon
            exact absurd hcon (by decide)
          · intro hcon
            exact absurd hcon (by decide)
          · intro _
            exact hg
          · intro hcon
            exact absurd hcon (by decide)
      | InFlight =>
        dsimp only
        refine ⟨by simp, ?_, ?_, ?_, ?_⟩
        · intro hcon
          exact absurd hcon (by decide)
        · intro hcon
          exact absurd hcon (by decide)
        · intro _
          exact hg
        · intro hcon
          exact absurd hcon (by decide)
  · rw [if_neg hdue, if_neg hdue]
    refine ⟨by simp, ?_, ?_, ?_, ?_⟩
    · intro hcon
      exact absurd hcon (by decide)
    · intro hcon
      exact absurd hcon (by decide)
    · intro hcon
      exact absurd hcon (by decide)
    · intro _
      refine ⟨rfl, ?_⟩
      dsimp only
      split <;> omega

/-! ## Claims C4 and C5: hold evaluation during a rescan -/

/-- Claim C4: for a due item whose hold is `ConcurrencyLimited{limiters,
next_due}`, the rescan skips the item (state unchanged) unless some limiter
has `concurrent < max_concurrent` or `next_due` is present and has elapsed;
when some limiter has spare capacity (or `next_due` elapsed), the stale hold
is removed and the item proceeds to admission. -/
theorem c4_admission_monotonicity (now : Nat) (adm : QueueId → Option Limiter)
    (st : ScanState) (qe : QueueEventItem) (ls : List Limiter) (nd : Option Nat)
    (hdue : qe.due ≤ now)
    (hhold : holdsGet st.on_hold qe.queue_id = some (.ConcurrencyLimited ls nd)) :
    ((∀ l ∈ ls, ¬ l.concurrent < l.max_concurrent) →
      (∀ d, nd = some d → ¬ d ≤ now) →
      stepItem now adm st qe = st) ∧
    ((∃ l ∈ ls, l.concurrent < l.max_concurrent) →
      stepItem now adm st qe =
        admitItem adm { st with on_hold := holdsRemove st.on_hold qe.queue_id } qe) ∧
    (∀ d, nd = some d → d ≤ now →
      stepItem now adm st qe =
        admitItem adm { st with on_hold := holdsRemove st.on_hold qe.queue_id } qe) := by
  rw [stepItem, if_pos hdue, hhold]
  dsimp only
  refine ⟨?_, ?_, ?_⟩
  · intro hno hnd
    have hel : clEligible now ls nd = false := by
      rw [clEligible.eq_def, Bool.or_eq_false_iff]
      constructor
      · rw [List.any_eq_false]
        intro l hl
        simpa using hno l hl
      · cases nd with
        | none => rfl
        | some d => simpa using hnd d rfl
    rw [hel]
    simp
  · intro hspare
    have hel : clEligible now ls nd = true := by
      rw [clEligible.eq_def, Bool.or_eq_true]
      left
      rw [List.any_eq_true]
      obtain ⟨l, hl, hcap⟩ := hspare
      exact ⟨l, hl, by simpa using hcap⟩
    rw [hel]
    simp
  · intro d hd hdle
    have hel : clEligible now ls nd = true := by
      rw [clEligible.eq_def, Bool.or_eq_true]
      right
      rw [hd]
      simpa using hdle
    rw [hel]
    simp

/-- Claim C5: for a due item whose hold is `Locked{until}`, if `now < until`
the item is skipped — never dispatched, the hold is kept, and `until - now`
is folded into the running minimum for the next wake-up; if `until ≤ now`
the stale hold is removed and the item falls through to admission. -/
theorem c5_lock_expiry (now : Nat) (adm : QueueId → Option Limiter)
    (st : ScanState) (qe : QueueEventItem) (u : Nat)
    (hdue : qe.due ≤ now)
    (hhold : holdsGet st.on_hold qe.queue_id = some (.Locked u)) :
    (now < u →
      stepItem now adm st qe =
        { st with next_wake_up := min (u - now) st.next_wake_up } ∧
      (stepItem now adm st qe).dispatched = st.dispatched ∧
      holdsGet (stepItem now adm st qe).on_hold qe.queue_id = some (.Locked u)) ∧
    (u ≤ now →
      stepItem now adm st qe =
        admitItem adm { st with on_hold := holdsRemove st.on_hold qe.queue_id } qe) := by
  constructor
  · intro hlt
    have hmin : (if u - now < st.next_wake_up then u - now else st.next_wake_up) =
        min (u - now) st.next_wake_up := by
      split <;> omega
    have hres : stepItem now adm st qe =
        { st with next_wake_up := min (u - now) st.next_wake_up } := by
      rw [stepItem, if_pos hdue, hhold]
      dsimp only
      rw [if_pos hlt, hmin]
    refine ⟨hres, by rw [hres], by rw [hres]; exact hhold⟩
  · intro hge
    rw [stepItem, if_pos hdue, hhold]
    dsimp only
    rw [if_neg (by omega : ¬ now < u)]

/-! ## Claim C6: periodic cleanup retention -/

theorem keepHold_iff (now : Nat) (ids : List QueueId) (id : QueueId)
    (s : OnHold) :
    keepHold now ids id s = true ↔
      (s = .InFlight ∨ (∃ u, s = .Locked u ∧ now < u) ∨
       (∃ ls nd, s = .ConcurrencyLimited ls nd ∧ id ∈ ids)) := by
  cases s with
  | InFlight => simp [keepHold]
  | Locked u => simp [keepHold]
  | ConcurrencyLimited ls nd =>
    simp [keepHold, List.elem_iff]

theorem holdsGet_filter (pbool : QueueId → OnHold → Bool) (h : Holds)
    (id : QueueId) (s : OnHold) :
    (h.map Prod.fst).Nodup →
    (holdsGet (h.filter (fun p => pbool p.1 p.2)) id = some s ↔
      (holdsGet h id = some s ∧ pbool id s = true)) := by
  induction h with
  | nil =>
    intro _
    simp [holdsGet]
  | cons p t ih =>
    intro hnd
    obtain ⟨k, v⟩ := p
    rw [List.map_cons, List.nodup_cons] at hnd
    cases hpk : pbool k v with
    | true =>
      have hfc : ((k, v) :: t).filter (fun p => pbool p.1 p.2) =
          (k, v) :: t.filter (fun p => pbool p.1 p.2) := by
        simp [List.filter_cons, hpk]
      rw [hfc]
      by_cases hki : k = id
      · subst hki
        rw [holdsGet_cons, holdsGet_cons, if_pos rfl, if_pos rfl]
        constructor
        · intro hs
          cases hs
          exact ⟨rfl, hpk⟩
        · rintro ⟨hs, _⟩
          exact hs
      · rw [holdsGet_cons, holdsGet_cons, if_neg hki, if_neg hki]
        exact ih hnd.2
    | false =>
      have hfc : ((k, v) :: t).filter (fun p => pbool p.1 p.2) =
          t.filter (fun p => pbool p.1 p.2) := by
        simp [List.filter_cons, hpk]
      rw [hfc]
      by_cases hki : k = id
      · subst hki
        rw [holdsGet_cons, if_pos rfl]
        have hnone : holdsGet (t.filter (fun p => pbool p.1 p.2)) k = none := by
          apply holdsGet_eq_none_of_not_mem
          intro hmem
          rcases List.mem_map.mp hmem with ⟨q, hq, hqk⟩
          exact hnd.1 (List.mem_map.mpr ⟨q, List.mem_of_mem_filter hq, hqk⟩)
        rw [hnone]
        constructor
        · intro hcon
          cases hcon
        · rintro ⟨hs, hkeep⟩
          cases hs
          rw [hkeep] at hpk
          cases hpk
      · rw [holdsGet_cons, if_neg hki]
        exact ih hnd.2

/-- Claim C6: the periodic cleanup pass (`CLEANUP_INTERVAL` = 10 minutes)
retains exactly the `InFlight` holds, the `Locked{until}` holds with `until`
still in the future, and the `ConcurrencyLimited` holds whose id appears
among the batch of currently-due items, removing every other entry. -/
theorem c6_cleanup_retention (now : Nat) (ids : List QueueId) (h : Holds)
    (hnd : (h.map Prod.fst).Nodup) :
    CLEANUP_INTERVAL = 600 ∧
    ∀ id s, holdsGet (cleanupHolds now ids h) id = some s ↔
      (holdsGet h id = some s ∧
        (s = .InFlight ∨ (∃ u, s = .Locked u ∧ now < u) ∨
         (∃ ls nd, s = .ConcurrencyLimited ls nd ∧ id ∈ ids))) := by
  refine ⟨rfl, ?_⟩
  intro id s
  rw [← keepHold_iff now ids id s, cleanupHolds]
  exact holdsGet_filter (keepHold now ids) h id s hnd

/-! ## Claim C7: fairness shuffle and per-item outcome -/

theorem itemOutcome_congr (now : Nat) (adm : QueueId → Option Limiter)
    (h1 h2 : Holds) (qe : QueueEventItem)
    (h : holdsGet h1 qe.queue_id = holdsGet h2 qe.queue_id) :
    itemOutcome now adm h1 qe = itemOutcome now adm h2 qe := by
  rw [itemOutcome, itemOutcome, h]

/-- Claim C7: the batch returned by the store is shuffled exactly when it
contains more than 5 items; and regardless of processing order (any batch
with pairwise-distinct queue ids), every item with `due ≤ now` receives
exactly one outcome in the pass — dispatched once with an `InFlight` hold
inserted, a `ConcurrencyLimited` hold inserted, or skipped with its hold
retained per the hold-evaluation rules — while every item with `due > now`
is never dispatched, leaves its hold entry unchanged, and only contributes
its deadline to the next wake-up minimum. -/
theorem c7_shuffle_and_outcomes (now : Nat) (adm : QueueId → Option Limiter)
    (perm : List QueueEventItem → List QueueEventItem) (q : Nat)
    (holds0 : Holds) (batch : List QueueEventItem)
    (hnd : (batch.map QueueEventItem.queue_id).Nodup) :
    ((5 < batch.length → maybeShuffle perm batch = perm batch) ∧
     (batch.length ≤ 5 → maybeShuffle perm batch = batch)) ∧
    (∀ qe ∈ batch,
      (processBatch now adm ⟨holds0, q, []⟩ batch).dispatched.count qe.queue_id =
        (if itemOutcome now adm holds0 qe = .dispatchedNow then 1 else 0) ∧
      (itemOutcome now adm holds0 qe = .dispatchedNow →
        holdsGet (processBatch now adm ⟨holds0, q, []⟩ batch).on_hold qe.queue_id =
          some .InFlight) ∧
      (itemOutcome now adm holds0 qe = .limitedNow →
        ∃ l, adm qe.queue_id = some l ∧
          holdsGet (processBatch now adm ⟨holds0, q, []⟩ batch).on_hold qe.queue_id =
            some (.ConcurrencyLimited [l] none)) ∧
      (itemOutcome now adm holds0 qe = .skippedNow →
        holdsGet (processBatch now adm ⟨holds0, q, []⟩ batch).on_hold qe.queue_id =
          holdsGet holds0 qe.queue_id) ∧
      (itemOutcome now adm holds0 qe = .notDue →
        holdsGet (processBatch now adm ⟨holds0, q, []⟩ batch).on_hold qe.queue_id =
          holdsGet holds0 qe.queue_id ∧
        (processBatch now adm ⟨holds0, q, []⟩ batch).next_wake_up ≤ qe.due - now)) := by
  constructor
  · constructor
    · intro hlen
      rw [maybeShuffle, if_pos hlen]
    · intro hlen
      rw [maybeShuffle, if_neg (by omega)]
  · intro qe hqe
    obtain ⟨pre, post, rfl⟩ := List.append_of_mem hqe
    have hmap : ((pre ++ qe :: post).map QueueEventItem.queue_id) =
        pre.map QueueEventItem.queue_id ++
          qe.queue_id :: post.map QueueEventItem.queue_id := by
      simp
    rw [hmap, List.nodup_append] at hnd
    have hpost : qe.queue_id ∉ post.map QueueEventItem.queue_id := by
      have hc := hnd.2.1
      rw [List.nodup_cons] at hc
      exact hc.1
    have hpre : qe.queue_id ∉ pre.map QueueEventItem.queue_id := by
      intro hmem
      exact hnd.2.2 hmem (List.mem_cons_self _ _)
    have hfold : processBatch now adm ⟨holds0, q, []⟩ (pre ++ qe :: post) =
        processBatch now adm
          (stepItem now adm (processBatch now adm ⟨holds0, q, []⟩ pre) qe)
          post := by
      rw [processBatch, processBatch, List.foldl_append, List.foldl_cons]
      rfl
    have hpre0 := processBatch_other now adm pre qe.queue_id ⟨holds0, q, []⟩ hpre
    have hown := stepItem_own now adm (processBatch now adm ⟨holds0, q, []⟩ pre) qe
    have hoc : itemOutcome now adm
        (processBatch now adm ⟨holds0, q, []⟩ pre).on_hold qe =
        itemOutcome now adm holds0 qe :=
      itemOutcome_congr now adm _ holds0 qe hpre0.1
    rw [hoc] at hown
    have hpost0 := processBatch_other now adm post qe.queue_id
      (stepItem now adm (processBatch now adm ⟨holds0, q, []⟩ pre) qe) hpost
    rw [hfold]
    refine ⟨?_, ?_, ?_, ?_, ?_⟩
    · rw [hpost0.2, hown.1, hpre0.2]
      simp
    · intro hoc1
      rw [hpost0.1]
      exact hown.2.1 hoc1
    · intro hoc1
      obtain ⟨l, hl, hget⟩ := hown.2.2.1 hoc1
      exact ⟨l, hl, by rw [hpost0.1]; exact hget⟩
    · intro hoc1
      rw [hpost0.1, hown.2.2.2.1 hoc1]
      exact hpre0.1
    · intro hoc1
      obtain ⟨hget, hnwu⟩ := hown.2.2.2.2 hoc1
      refine ⟨by rw [hpost0.1, hget]; exact hpre0.1, ?_⟩
      calc (processBatch now adm
            (stepItem now adm (processBatch now adm ⟨holds0, q, []⟩ pre) qe)
            post).next_wake_up
          ≤ (stepItem now adm (processBatch now adm ⟨holds0, q, []⟩ pre)
              qe).next_wake_up := processBatch_nwu_le now adm post _
        _ ≤ qe.due - now := hnwu

/-! ## Loop-level lemmas -/

theorem cleanupHolds_inflight (now : Nat) (ids : List QueueId) (h : Holds)
    (id : QueueId) (hg : holdsGet h id = some .InFlight) :
    holdsGet (cleanupHolds now ids h) id = some .InFlight := by
  induction h with
  | nil => cases hg
  | cons p t ih =>
    obtain ⟨k, v⟩ := p
    rw [holdsGet_cons] at hg
    by_cases hki : k = id
    · rw [if_pos hki] at hg
      have hv : v = .InFlight := by injection hg
      subst hv
      have hc : cleanupHolds now ids ((k, OnHold.InFlight) :: t) =
          (k, OnHold.InFlight) :: cleanupHolds now ids t := by
        simp [cleanupHolds, List.filter_cons, keepHold]
      rw [hc, holdsGet_cons, if_pos hki]
    · rw [if_neg hki] at hg
      cases hk : keepHold now ids k v with
      | false =>
        have hc : cleanupHolds now ids ((k, v) :: t) = cleanupHolds now ids t := by
          simp [cleanupHolds, List.filter_cons, hk]
        rw [hc]
        exact ih hg
      | true =>
        have hc : cleanupHolds now ids ((k, v) :: t) =
            (k, v) :: cleanupHolds now ids t := by
          simp [cleanupHolds, List.filter_cons, hk]
        rw [hc, holdsGet_cons, if_neg hki]
        exact ih hg

theorem processEvent_holds_frame (st : QueueState) (ev : Option QueueEvent)
    (now mono : Nat) (id : QueueId) (st1 : QueueState) (refresh : Bool)
    (h1 : ev ≠ some (.WorkerDone id))
    (h2 : ev ≠ some (.Refresh (some id)))
    (h3 : ∀ s, ev ≠ some (.OnHoldEvent id s))
    (hp : processEvent st ev now mono = .proceed st1 refresh) :
    holdsGet st1.on_hold id = holdsGet st.on_hold id := by
  cases ev with
  | none =>
    cases hp
    rfl
  | some e =>
    cases e with
    | Refresh oid =>
      cases oid with
      | none =>
        simp only [processEvent] at hp
        cases hp
        rfl
      | some j =>
        have hji : id ≠ j := by
          intro hid
          exact h2 (by rw [hid])
        simp only [processEvent] at hp
        cases hp
        rw [holdsGet_remove, if_neg hji]
    | WorkerDone j =>
      have hji : id ≠ j := by
        intro hid
        exact h1 (by rw [hid])
      simp only [processEvent] at hp
      cases hp
      rw [holdsGet_remove, if_neg hji]
    | OnHoldEvent j s =>
      have hji : id ≠ j := by
        intro hid
        exact h3 s (by rw [hid])
      cases s with
      | Locked u =>
        simp only [processEvent] at hp
        cases hadd : instantAddSecs mono (wsub64 u now) with
        | none =>
          rw [hadd] at hp
          cases hp
        | some d =>
          rw [hadd] at hp
          dsimp only at hp
          cases hp
          rw [holdsGet_insert, if_neg hji]
          split <;> rfl
      | ConcurrencyLimited ls nd =>
        simp only [processEvent] at hp
        cases hp
        rw [holdsGet_insert, if_neg hji]
      | InFlight =>
        simp only [processEvent] at hp
        cases hp
        rw [holdsGet_insert, if_neg hji]
    | Paused p =>
      simp only [processEvent] at hp
      cases hp
      rfl
    | Stop =>
      simp only [processEvent] at hp
      cases hp

theorem processEvent_pause_frame (st : QueueState) (ev : Option QueueEvent)
    (now mono : Nat) (st1 : QueueState) (refresh : Bool)
    (hev : ∀ b, ev ≠ some (.Paused b))
    (hp : processEvent st ev now mono = .proceed st1 refresh) :
    st1.is_paused = st.is_paused := by
  cases ev with
  | none =>
    cases hp
    rfl
  | some e =>
    cases e with
    | Refresh oid =>
      cases oid with
      | none =>
        simp only [processEvent] at hp
        cases hp
        rfl
      | some j =>
        simp only [processEvent] at hp
        cases hp
        rfl
    | WorkerDone j =>
      simp only [processEvent] at hp
      cases hp
      rfl
    | OnHoldEvent j s =>
      cases s with
      | Locked u =>
        simp only [processEvent] at hp
        cases hadd : instantAddSecs mono (wsub64 u now) with
        | none =>
          rw [hadd] at hp
          cases hp
        | some d =>
          rw [hadd] at hp
          dsimp only at hp
          cases hp
          split <;> rfl
      | ConcurrencyLimited ls nd =>
        simp only [processEvent] at hp
        cases hp
        rfl
      | InFlight =>
        simp only [processEvent] at hp
        cases hp
        rfl
    | Paused p => exact absurd rfl (hev p)
    | Stop =>
      simp only [processEvent] at hp
      cases hp

theorem rescan_inflight (q : Nat) (st : QueueState) (inp : LoopInput)
    (id : QueueId) (hin : holdsGet st.on_hold id = some .InFlight) :
    holdsGet (rescan q st inp).1.on_hold id = some .InFlight ∧
    (rescan q st inp).2.count id = 0 := by
  have hscan := processBatch_inflight inp.now inp.adm
    (maybeShuffle inp.perm inp.batch) id ⟨st.on_hold, q, []⟩ hin
  rw [rescan]
  dsimp only
  constructor
  · split
    · split
      · exact hscan.1
      · exact cleanupHolds_inflight inp.now _ _ id hscan.1
    · exact hscan.1
  · rw [hscan.2]
    simp

/-! ## Claim C1: single flight -/

/-- Claim C1 (counterexample): the claim that `WorkerDone` is the only path
clearing an `InFlight` hold is false — a first iteration dispatches id 1 and
inserts `InFlight`; a `Refresh(Some(1))` event then removes that hold
(middle equation), and the following rescan of the same iteration dispatches
id 1 a second time with no `WorkerDone(1)` ever processed. -/
theorem c1_counterexample :
    loopBody QUEUE_REFRESH ⟨[], 0, false, 10000, true⟩
        ⟨none, 100, 0, [⟨1, 50⟩], fun _ => none, fun b => b⟩ =
      .ok ⟨[(1, .InFlight)], 3600, false, 10000, true⟩ [1] ∧
    processEvent ⟨[(1, .InFlight)], 3600, false, 10000, true⟩
        (some (.Refresh (some 1))) 200 10 =
      .proceed ⟨[], 3600, false, 10000, true⟩ true ∧
    loopBody QUEUE_REFRESH ⟨[(1, .InFlight)], 3600, false, 10000, true⟩
        ⟨some (.Refresh (some 1)), 200, 10, [⟨1, 50⟩], fun _ => none, fun b => b⟩ =
      .ok ⟨[(1, .InFlight)], 3610, false, 10000, true⟩ [1] :=
  ⟨rfl, rfl, rfl⟩

/-- Claim C1 (amended): while an id's hold is `InFlight`, any completed loop
iteration whose received event is not `WorkerDone(id)`, not
`Refresh(Some(id))` and not an `OnHold{id, ..}` overwrite keeps the
`InFlight` hold and dispatches nothing for that id; in particular the rescan
always skips it and the periodic cleanup always retains it. -/
theorem c1_single_flight (q : Nat) (st : QueueState) (inp : LoopInput)
    (id : QueueId) (st' : QueueState) (disp : List QueueId)
    (hin : holdsGet st.on_hold id = some .InFlight)
    (h1 : inp.event ≠ some (.WorkerDone id))
    (h2 : inp.event ≠ some (.Refresh (some id)))
    (h3 : ∀ s, inp.event ≠ some (.OnHoldEvent id s))
    (hstep : loopBody q st inp = .ok st' disp) :
    holdsGet st'.on_hold id = some .InFlight ∧ disp.count id = 0 := by
  rw [loopBody] at hstep
  cases hpe : processEvent st inp.event inp.now inp.mono with
  | halted =>
    rw [hpe] at hstep
    cases hstep
  | panicked =>
    rw [hpe] at hstep
    cases hstep
  | proceed st1 refresh =>
    rw [hpe] at hstep
    dsimp only at hstep
    have hin1 : holdsGet st1.on_hold id = some .InFlight :=
      (processEvent_holds_frame st inp.event inp.now inp.mono id st1 refresh
        h1 h2 h3 hpe).trans hin
    cases hps : st1.is_paused with
    | true =>
      rw [hps] at hstep
      simp only [Bool.not_true, Bool.false_eq_true, if_false] at hstep
      cases hstep
      refine ⟨hin1, by simp⟩
    | false =>
      rw [hps] at hstep
      simp only [Bool.not_false, if_true] at hstep
      cases hrq : (refresh || decide (st1.next_wake_up ≤ inp.mono)) with
      | false =>
        rw [hrq] at hstep
        simp only [Bool.false_eq_true, if_false] at hstep
        cases hstep
        refine ⟨hin1, by simp⟩
      | true =>
        rw [hrq] at hstep
        simp only [if_true] at hstep
        cases hstep
        exact rescan_inflight q st1 inp id hin1

/-- Witness for the amended C1 at a concrete paused-free iteration. -/
theorem c1_single_flight_witness :
    holdsGet (⟨[(1, .InFlight)], 3600, false, 10000, true⟩ :
        QueueState).on_hold 1 = some .InFlight ∧
    ([] : List QueueId).count 1 = 0 :=
  c1_single_flight 3600 ⟨[(1, .InFlight)], 50, false, 10000, true⟩
    ⟨none, 100, 0, [⟨1, 40⟩], fun _ => none, fun b => b⟩ 1
    ⟨[(1, .InFlight)], 3600, false, 10000, true⟩ [] rfl
    (by simp) (by simp) (fun s => by simp) rfl

/-! ## Claim C2: pause correctness -/

/-- Claim C2 (counterexample): processing `Paused(false)` does not force a
rescan.  With a due, admissible item `(1, due 50)` in the store at
`now = 100` and the paused-idle `next_wake_up = 86400` still in the future,
the unpausing iteration dispatches nothing and leaves `next_wake_up` at the
24-hour horizon. -/
theorem c2_counterexample :
    loopBody QUEUE_REFRESH ⟨[], 86400, true, 100000, false⟩
        ⟨some (.Paused false), 100, 10, [⟨1, 50⟩], fun _ => none, fun b => b⟩ =
      .ok ⟨[], 86400, false, 100000, true⟩ [] :=
  rfl

/-- Claim C2 (amended): while the pause flag is set, a completed iteration
that does not process a `Paused` event dispatches nothing and ends with
`next_wake_up` at the 24-hour horizon `mono + 86400`; processing
`Paused(false)` clears the flag and publishes the status, but returns
`refresh_queue = false`, so while `next_wake_up` is still in the future no
rescan and no dispatch happen in that iteration — the queue state is
unchanged apart from the two flags. -/
theorem c2_pause_correctness (q : Nat) :
    (∀ st inp st' disp, st.is_paused = true →
      (∀ b, inp.event ≠ some (.Paused b)) →
      loopBody q st inp = .ok st' disp →
      disp = [] ∧ st'.next_wake_up = inp.mono + 86400 ∧ st'.is_paused = true) ∧
    (∀ st inp, inp.event = some (.Paused false) →
      inp.mono < st.next_wake_up →
      loopBody q st inp = .ok { st with is_paused := false, queue_status := true } []) := by
  constructor
  · intro st inp st' disp hpaused hev hstep
    rw [loopBody] at hstep
    cases hpe : processEvent st inp.event inp.now inp.mono with
    | halted =>
      rw [hpe] at hstep
      cases hstep
    | panicked =>
      rw [hpe] at hstep
      cases hstep
    | proceed st1 refresh =>
      rw [hpe] at hstep
      dsimp only at hstep
      have hps : st1.is_paused = true :=
        (processEvent_pause_frame st inp.event inp.now inp.mono st1 refresh
          hev hpe).trans hpaused
      rw [hps] at hstep
      simp only [Bool.not_true, Bool.false_eq_true, if_false] at hstep
      cases hstep
      exact ⟨rfl, rfl, rfl⟩
  · intro st inp hev hmono
    have hle : ¬ st.next_wake_up ≤ inp.mono := by omega
    rw [loopBody, hev]
    simp only [processEvent]
    dsimp only
    simp only [Bool.not_false, if_true, Bool.false_or, decide_eq_true_eq]
    rw [if_neg hle]

/-- Witness for the amended C2: a timed-out iteration while paused, and a
concrete `Paused(false)` iteration. -/
theorem c2_pause_correctness_witness :
    (([] : List QueueId) = [] ∧
      (⟨[], 86410, true, 9999, false⟩ : QueueState).next_wake_up = 10 + 86400 ∧
      (⟨[], 86410, true, 9999, false⟩ : QueueState).is_paused = true) ∧
    loopBody 3600 ⟨[], 700, true, 9999, false⟩
        ⟨some (.Paused false), 100, 10, [], fun _ => none, fun b => b⟩ =
      .ok { (⟨[], 700, true, 9999, false⟩ : QueueState) with
              is_paused := false, queue_status := true } [] :=
  ⟨(c2_pause_correctness 3600).1 ⟨[], 500, true, 9999, false⟩
      ⟨none, 100, 10, [], fun _ => none, fun b => b⟩
      ⟨[], 86410, true, 9999, false⟩ [] rfl
      (fun b hb => Option.noConfusion hb) rfl,
    (c2_pause_correctness 3600).2 ⟨[], 700, true, 9999, false⟩
      ⟨some (.Paused false), 100, 10, [], fun _ => none, fun b => b⟩ rfl
      (by decide)⟩

/-! ## Claim C3: timer underflow -/

/-- Claim C3 (code evaluation at the failing input): the timed-wait clamp
(`duration_since`, last conjunct) does saturate at zero, but processing
`OnHold{1, Locked{until: 5}}` when `now() = 10` computes the unguarded
`u64` subtraction `5 - 10`, which wraps to `2^64 - 5` (first conjunct; a
debug build panics right there), and adding that duration to
`Instant::now()` overflows and panics (second conjunct) — the wait is
neither clamped to zero nor panic-free, contradicting the claim. -/
theorem c3_timer_underflow_bug :
    wsub64 5 10 = U64MOD - 5 ∧
    loopBody QUEUE_REFRESH ⟨[], 100, false, 10000, true⟩
        ⟨some (.OnHoldEvent 1 (.Locked 5)), 10, 0, [], fun _ => none, fun b => b⟩ =
      .panicked ∧
    waitDuration ⟨[], 100, false, 10000, true⟩ 250 = 0 :=
  ⟨rfl, rfl, rfl⟩

/-! ## Claim C9: wake precision -/

/-- Claim C9 (counterexample): a rescan at `now = 10` over the single future
item `(1, due 7210)` with no holds sets `next_wake_up` to
`mono + QUEUE_REFRESH = 3600`, which is strictly before the instant
`mono + (7210 - 10) = 7200` corresponding to the item's deadline — the next
timed wait expires before `T`, refuting "at or after `T`, never earlier". -/
theorem c9_counterexample :
    loopBody QUEUE_REFRESH ⟨[], 0, false, 10000, true⟩
        ⟨none, 10, 0, [⟨1, 7210⟩], fun _ => none, fun b => b⟩ =
      .ok ⟨[], 3600, false, 10000, true⟩ [] ∧
    3600 < 0 + (7210 - 10) :=
  ⟨rfl, by norm_num⟩

/-- Claim C9 (amended): a rescan over a batch holding exactly one item with
future deadline `T`, with no holds, dispatches nothing and sets
`next_wake_up` to `mono + min (T - now) qrefresh`: the wait expires at or
*before* the instant corresponding to `T` — exactly at it when
`T - now ≤ qrefresh`, strictly earlier otherwise. -/
theorem c9_wake_precision (q : Nat) (st : QueueState) (inp : LoopInput)
    (i T : Nat) (st' : QueueState) (disp : List QueueId)
    (hb : inp.batch = [⟨i, T⟩]) (hfut : inp.now < T)
    (hh : st.on_hold = []) (hp : st.is_paused = false) (hev : inp.event = none)
    (hstep : loopBody q st inp = .ok st' disp) :
    disp = [] ∧
    st'.next_wake_up = inp.mono + min (T - inp.now) q ∧
    st'.next_wake_up ≤ inp.mono + (T - inp.now) ∧
    (T - inp.now ≤ q → st'.next_wake_up = inp.mono + (T - inp.now)) := by
  have hscan : processBatch inp.now inp.adm ⟨st.on_hold, q, []⟩
      (maybeShuffle inp.perm inp.batch) =
      ⟨[], min (T - inp.now) q, []⟩ := by
    rw [hb, hh, maybeShuffle]
    rw [if_neg (by simp)]
    rw [processBatch]
    simp only [List.foldl_cons, List.foldl_nil]
    rw [stepItem]
    rw [if_neg (show ¬ (⟨i, T⟩ : QueueEventItem).due ≤ inp.now by
      dsimp only
      omega)]
    dsimp only
    have hm : (if T - inp.now < q then T - inp.now else q) =
        min (T - inp.now) q := by
      split <;> omega
    rw [hm]
  have hdisp : (rescan q st inp).2 = [] := by
    rw [rescan]
    dsimp only
    rw [hscan]
  have hnwu : (rescan q st inp).1.next_wake_up =
      inp.mono + min (T - inp.now) q := by
    rw [rescan]
    dsimp only
    rw [hscan]
  rw [loopBody, hev] at hstep
  dsimp only [processEvent] at hstep
  rw [hp] at hstep
  simp only [Bool.not_false, if_true, Bool.true_or] at hstep
  cases hstep
  refine ⟨hdisp, hnwu, ?_, ?_⟩
  · rw [hnwu]
    omega
  · intro hle
    rw [hnwu]
    omega

/-- Witness for the amended C9 at a concrete iteration. -/
theorem c9_wake_precision_witness :
    ([] : List QueueId) = [] ∧
    (⟨[], 97, false, 9999, true⟩ : QueueState).next_wake_up =
      7 + min (100 - 10) 3600 ∧
    (⟨[], 97, false, 9999, true⟩ : QueueState).next_wake_up ≤ 7 + (100 - 10) ∧
    (100 - 10 ≤ 3600 →
      (⟨[], 97, false, 9999, true⟩ : QueueState).next_wake_up = 7 + (100 - 10)) :=
  c9_wake_precision 3600 ⟨[], 50, false, 9999, true⟩
    ⟨none, 10, 7, [⟨2, 100⟩], fun _ => none, fun b => b⟩ 2 100
    ⟨[], 97, false, 9999, true⟩ [] rfl (by decide) rfl rfl rfl rfl

/-! ## Claim C10: frame effect of OnHold control events -/

/-- Claim C10 (counterexample): processing an `OnHold{id, Locked{until}}`
event whose `until` (3) is before the current epoch time (20) panics — the
wrapped subtraction overflows the instant — so no hold is inserted and no
state results at all, refuting "in every case the only scheduler-state
change is the insertion of the hold". -/
theorem c10_counterexample :
    processEvent ⟨[], 100, false, 10000, true⟩
        (some (.OnHoldEvent 7 (.Locked 3))) 20 4 = .panicked :=
  rfl

theorem wsub64_of_le (a b : Nat) (hba : b ≤ a) (ha : a < U64MOD) :
    wsub64 a b = a - b := by
  rw [wsub64]
  rw [U64MOD] at ha ⊢
  omega

/-- Claim C10 (amended): an `OnHold{id, status}` event with status
`ConcurrencyLimited` or `InFlight` leaves `next_wake_up` unchanged and only
inserts/overwrites the hold entry for `id`; one with `Locked{until}` and
`until ≥ now` (the `until < now` case panics, claim C3) moves `next_wake_up`
exactly when the instant `mono + (until - now)` precedes it, and never
moves it later. -/
theorem c10_onhold_frame (st : QueueState) (id : QueueId) (now mono : Nat) :
    (∀ ls nd,
      processEvent st (some (.OnHoldEvent id (.ConcurrencyLimited ls nd)))
          now mono =
        .proceed { st with
            on_hold := holdsInsert st.on_hold id (.ConcurrencyLimited ls nd) }
          (decide (1 < (holdsInsert st.on_hold id
            (.ConcurrencyLimited ls nd)).length))) ∧
    (processEvent st (some (.OnHoldEvent id .InFlight)) now mono =
      .proceed { st with on_hold := holdsInsert st.on_hold id .InFlight }
        (decide (1 < (holdsInsert st.on_hold id .InFlight).length))) ∧
    (∀ u, now ≤ u → u < U64MOD →
      mono + (u - now) ≤ INSTANT_MAX_SECS →
      processEvent st (some (.OnHoldEvent id (.Locked u))) now mono =
        .proceed { st with
            on_hold := holdsInsert st.on_hold id (.Locked u),
            next_wake_up :=
              if mono + (u - now) < st.next_wake_up then mono + (u - now)
              else st.next_wake_up }
          (decide (1 < (holdsInsert st.on_hold id (.Locked u)).length)) ∧
      (if mono + (u - now) < st.next_wake_up then mono + (u - now)
       else st.next_wake_up) ≤ st.next_wake_up) := by
  refine ⟨fun ls nd => rfl, rfl, ?_⟩
  intro u hnu hu hbound
  have hw : wsub64 u now = u - now := wsub64_of_le u now hnu hu
  have hadd : instantAddSecs mono (u - now) = some (mono + (u - now)) := by
    rw [instantAddSecs, if_pos hbound]
  constructor
  · simp only [processEvent, hw, hadd]
    by_cases hlt : mono + (u - now) < st.next_wake_up
    · rw [if_pos hlt, if_pos hlt]
    · rw [if_neg hlt, if_neg hlt]
  · by_cases hlt : mono + (u - now) < st.next_wake_up
    · rw [if_pos hlt]
      omega
    · rw [if_neg hlt]

/-- Witness for the amended C10 at concrete events. -/
theorem c10_onhold_frame_witness :
    (processEvent ⟨[(3, .InFlight)], 500, false, 9999, true⟩
        (some (.OnHoldEvent 4 (.Locked 60))) 50 7 =
      .proceed { (⟨[(3, .InFlight)], 500, false, 9999, true⟩ : QueueState) with
          on_hold := holdsInsert [(3, .InFlight)] 4 (.Locked 60),
          next_wake_up :=
            if 7 + (60 - 50) < 500 then 7 + (60 - 50) else 500 }
        (decide (1 < (holdsInsert [(3, .InFlight)] 4 (.Locked 60)).length)) ∧
      (if 7 + (60 - 50) < 500 then 7 + (60 - 50) else 500) ≤ 500) ∧
    processEvent ⟨[(3, .InFlight)], 500, false, 9999, true⟩
        (some (.OnHoldEvent 4 .InFlight)) 50 7 =
      .proceed { (⟨[(3, .InFlight)], 500, false, 9999, true⟩ : QueueState) with
          on_hold := holdsInsert [(3, .InFlight)] 4 .InFlight }
        (decide (1 < (holdsInsert [(3, .InFlight)] 4 .InFlight).length)) :=
  ⟨(c10_onhold_frame ⟨[(3, .InFlight)], 500, false, 9999, true⟩ 4 50 7).2.2 60
      (by omega) (by norm_num [U64MOD]) (by norm_num [INSTANT_MAX_SECS]),
    (c10_onhold_frame ⟨[(3, .InFlight)], 500, false, 9999, true⟩ 4 50 7).2.1⟩

/-! ## Witnesses for the scan-level claims -/

/-- Witness for C4: a saturated limiter with no `next_due` is skipped; a
limiter with spare capacity leads to removal and admission. -/
theorem c4_admission_monotonicity_witness :
    stepItem 100 (fun _ => none)
        ⟨[(5, .ConcurrencyLimited [⟨2, 2⟩] none)], 777, []⟩ ⟨5, 90⟩ =
      ⟨[(5, .ConcurrencyLimited [⟨2, 2⟩] none)], 777, []⟩ ∧
    stepItem 100 (fun _ => none)
        ⟨[(6, .ConcurrencyLimited [⟨0, 2⟩] none)], 777, []⟩ ⟨6, 90⟩ =
      admitItem (fun _ => none)
        { (⟨[(6, .ConcurrencyLimited [⟨0, 2⟩] none)], 777, []⟩ : ScanState) with
            on_hold := holdsRemove [(6, .ConcurrencyLimited [⟨0, 2⟩] none)] 6 }
        ⟨6, 90⟩ :=
  ⟨(c4_admission_monotonicity 100 (fun _ => none)
      ⟨[(5, .ConcurrencyLimited [⟨2, 2⟩] none)], 777, []⟩ ⟨5, 90⟩ [⟨2, 2⟩] none
      (by decide) (by decide)).1 (by decide)
      (fun d hd => Option.noConfusion hd),
    (c4_admission_monotonicity 100 (fun _ => none)
      ⟨[(6, .ConcurrencyLimited [⟨0, 2⟩] none)], 777, []⟩ ⟨6, 90⟩ [⟨0, 2⟩] none
      (by decide) (by decide)).2.1 (by decide)⟩

/-- Witness for C5: a still-future lock folds `until - now` into the wake-up
minimum and keeps the hold; an expired lock is removed and admitted. -/
theorem c5_lock_expiry_witness :
    (stepItem 100 (fun _ => none) ⟨[(2, .Locked 150)], 777, []⟩ ⟨2, 90⟩ =
        { (⟨[(2, .Locked 150)], 777, []⟩ : ScanState) with
            next_wake_up := min (150 - 100) 777 } ∧
      (stepItem 100 (fun _ => none) ⟨[(2, .Locked 150)], 777, []⟩
          ⟨2, 90⟩).dispatched =
        (⟨[(2, .Locked 150)], 777, []⟩ : ScanState).dispatched ∧
      holdsGet (stepItem 100 (fun _ => none) ⟨[(2, .Locked 150)], 777, []⟩
          ⟨2, 90⟩).on_hold 2 = some (.Locked 150)) ∧
    stepItem 100 (fun _ => none) ⟨[(3, .Locked 80)], 777, []⟩ ⟨3, 90⟩ =
      admitItem (fun _ => none)
        { (⟨[(3, .Locked 80)], 777, []⟩ : ScanState) with
            on_hold := holdsRemove [(3, .Locked 80)] 3 } ⟨3, 90⟩ :=
  ⟨(c5_lock_expiry 100 (fun _ => none) ⟨[(2, .Locked 150)], 777, []⟩
      ⟨2, 90⟩ 150 (by decide) (by decide)).1 (by decide),
    (c5_lock_expiry 100 (fun _ => none) ⟨[(3, .Locked 80)], 777, []⟩
      ⟨3, 90⟩ 80 (by decide) (by decide)).2 (by decide)⟩

/-- Witness for C6 on a concrete hold map: the `InFlight` entry survives the
cleanup pass. -/
theorem c6_cleanup_retention_witness :
    holdsGet (cleanupHolds 10 [3]
        [(1, .InFlight), (2, .Locked 50), (3, .ConcurrencyLimited [] none),
         (4, .Locked 5)]) 1 = some .InFlight ↔
      (holdsGet [(1, .InFlight), (2, .Locked 50),
          (3, .ConcurrencyLimited [] none), (4, .Locked 5)] 1 =
        some .InFlight ∧
        (OnHold.InFlight = .InFlight ∨
         (∃ u, OnHold.InFlight = .Locked u ∧ 10 < u) ∨
         (∃ ls nd, OnHold.InFlight = .ConcurrencyLimited ls nd ∧ 1 ∈ [3]))) :=
  (c6_cleanup_retention 10 [3]
    [(1, .InFlight), (2, .Locked 50), (3, .ConcurrencyLimited [] none),
     (4, .Locked 5)] (by decide)).2 1 .InFlight

/-- Witness for C7 on a concrete two-item batch: the small batch is not
shuffled, and the first (due, admissible) item is dispatched exactly once. -/
theorem c7_shuffle_and_outcomes_witness :
    maybeShuffle (fun b => b) [⟨1, 50⟩, ⟨2, 200⟩] = [⟨1, 50⟩, ⟨2, 200⟩] ∧
    (processBatch 100 (fun _ => none) ⟨[], 3600, []⟩
        [⟨1, 50⟩, ⟨2, 200⟩]).dispatched.count 1 =
      (if itemOutcome 100 (fun _ => none) [] ⟨1, 50⟩ = .dispatchedNow
       then 1 else 0) :=
  ⟨(c7_shuffle_and_outcomes 100 (fun _ => none) (fun b => b) 3600 []
      [⟨1, 50⟩, ⟨2, 200⟩] (by decide)).1.2 (by decide),
    ((c7_shuffle_and_outcomes 100 (fun _ => none) (fun b => b) 3600 []
      [⟨1, 50⟩, ⟨2, 200⟩] (by decide)).2 ⟨1, 50⟩ (by decide)).1⟩

end MailQueue
